import Mathlib

/-!
Verification of the matchup versioning and update-diff engine of the
MatchupHelper application (frontend source: src/app.js).

The engine is embedded shallowly: JavaScript objects whose fields may be
absent become structures with Option fields, DOM text inputs become plain
String arguments, and calls to the external store (invoke) become an
explicit list of StoreCall effects returned by each operation.  String
transformations (trim, toLowerCase, the whitespace-collapsing replace, the
comma split and the comma join) are implemented on lists of characters,
mirroring the JavaScript expressions line by line.
-/

namespace MatchupHelper

/-! ## Character-level string helpers -/

/-- Both ends trimmed of whitespace, as the JavaScript trim method does. -/
def trimChars (l : List Char) : List Char :=
  ((l.dropWhile Char.isWhitespace).reverse.dropWhile Char.isWhitespace).reverse

/-- String wrapper around trimChars, modelling value.trim() in app.js. -/
def jsTrim (s : String) : String := ⟨trimChars s.data⟩

/-- Worker for the replace of whitespace runs by hyphens: the flag records
whether the previous character was whitespace, so that a run of whitespace
produces exactly one hyphen, at its first character. -/
def collapseWsAux : Bool → List Char → List Char
  | _, [] => []
  | prevWs, c :: cs =>
    if c.isWhitespace then
      (if prevWs then [] else ['-']) ++ collapseWsAux true cs
    else c :: collapseWsAux false cs

/-- The replace of every whitespace run by a single hyphen, modelling the
regular-expression replace in handleAddTag (app.js line 406). -/
def collapseWs (l : List Char) : List Char := collapseWsAux false l

/-- Tag normalization pipeline of handleAddTag (app.js line 406):
trim, then lower-case, then collapse whitespace runs to single hyphens. -/
def normTag (s : String) : String :=
  ⟨collapseWs ((trimChars s.data).map Char.toLower)⟩

/-- Split on commas, modelling value.split(",") in parseCommaSeparated
(app.js line 438). -/
def splitComma : List Char → List (List Char)
  | [] => [[]]
  | c :: cs =>
    if c = ',' then [] :: splitComma cs
    else (c :: (splitComma cs).headD []) :: (splitComma cs).tail

/-- Join with ", " as the display code does (app.js lines 371-373, 428-430). -/
def joinCS : List (List Char) → List Char
  | [] => []
  | [a] => a
  | a :: b :: rest => a ++ ',' :: ' ' :: joinCS (b :: rest)

/-- Core of parseCommaSeparated on character lists (app.js lines 436-439):
early return of the empty list when the input is empty or whitespace-only,
otherwise split on commas, trim each piece and keep the nonempty pieces. -/
def parseCS (l : List Char) : List (List Char) :=
  if trimChars l = [] then []
  else ((splitComma l).map trimChars).filter (fun p => !p.isEmpty)

/-- parseCommaSeparated of app.js lines 436-439, on strings. -/
def parseCommaSeparated (s : String) : List String :=
  (parseCS s.data).map (fun p => (⟨p⟩ : String))

/-- The join-with-comma-and-space rendering used for the build fields. -/
def joinWithComma (l : List String) : String :=
  ⟨joinCS (l.map String.data)⟩

/-! ## Data model -/

/-- A stored version record.  Fields may be absent in the JSON coming from
the store, hence the Option types; app.js guards every read of them. -/
structure Version where
  notes : Option String
  tags : Option (List String)
  runes : Option (List String)
  summoner_spells : Option (List String)
  items : Option (List String)
  date : Option String
deriving DecidableEq, Repr

/-- A matchup record as handled by app.js.  The current_version index is a
raw number from the store, kept as an integer so that out-of-range values
(including zero and negatives) are representable. -/
structure Matchup where
  id : String
  my_champion : String
  enemy_champion : String
  role : String
  versions : List Version
  current_version : Int
deriving DecidableEq, Repr

/-- The flat update payload saveMatchup sends to the store
(app.js lines 458-464). -/
structure MatchupUpdate where
  notes : String
  tags : List String
  runes : List String
  summoner_spells : List String
  items : List String
deriving DecidableEq, Repr

/-- A call into the external persistence layer (invoke in app.js).  Only
the update call matters to the claims under verification. -/
inductive StoreCall where
  | update_matchup (id : String) (u : MatchupUpdate)
deriving DecidableEq, Repr

/-- The detail-pane DOM fields written by openMatchupDetail and
handleVersionChange (notes, runes, summoners, items inputs and the
rendered tag list). -/
structure DetailDom where
  notes : String
  runes : String
  summoners : String
  items : String
  tags : List String
deriving DecidableEq, Repr

/-- One open edit session: the in-memory matchup (state.currentMatchup)
and the detail-pane DOM. -/
structure EditSession where
  matchup : Matchup
  dom : DetailDom
deriving DecidableEq, Repr

/-! ## Operations -/

/-- The JavaScript indexing versions[i - 1]: undefined exactly when the
1-based index is below one or beyond the end. -/
def getVersionAt (vs : List Version) (i : Int) : Option Version :=
  if i - 1 < 0 then none else vs[(i - 1).toNat]?

/-- handleAddTag (app.js lines 404-415), on the version being edited.
The guard requires the trimmed raw input to be nonempty; the tag is
normalized, the tags field initialized to the empty list when absent, and
the tag appended only when not already present. -/
def handleAddTag (v : Version) (raw : String) : Version :=
  if jsTrim raw = "" then v
  else
    let tag := normTag raw
    let tags := v.tags.getD []
    if tag ∈ tags then { v with tags := some tags }
    else { v with tags := some (tags ++ [tag]) }

/-- The || versions[0] fallback shared by renderMatchups (app.js line 297)
and openMatchupDetail (app.js line 361): an object is truthy, undefined is
falsy, so the first version is used exactly when the pointer selects
nothing. -/
def resolveActiveVersion (m : Matchup) : Option Version :=
  match getVersionAt m.versions m.current_version with
  | some v => some v
  | none => m.versions[0]?

/-- Rendering of the four text inputs and the tag list from a possibly
absent version, as done with optional chaining and || defaults in
openMatchupDetail (app.js lines 368-375) and handleVersionChange
(app.js lines 427-432). -/
def renderVersionDom (v? : Option Version) : DetailDom :=
  { notes := (v?.bind Version.notes).getD ""
    runes := ((v?.bind Version.runes).map joinWithComma).getD ""
    summoners := ((v?.bind Version.summoner_spells).map joinWithComma).getD ""
    items := ((v?.bind Version.items).map joinWithComma).getD ""
    tags := (v?.bind Version.tags).getD [] }

/-- handleVersionChange (app.js lines 423-433): reads versions[i - 1] and
rewrites only the detail DOM; state.currentMatchup is untouched and no
store call is made. -/
def handleVersionChange (s : EditSession) (i : Int) : EditSession × List StoreCall :=
  ({ matchup := s.matchup
     dom := renderVersionDom (getVersionAt s.matchup.versions i) }, [])

/-- The detail pane as filled by openMatchupDetail (app.js lines 357-387),
using the first-version fallback. -/
def openMatchupDetailDom (m : Matchup) : DetailDom :=
  renderVersionDom (resolveActiveVersion m)

/-- The tag list shown on a matchup card by renderMatchups
(app.js lines 296-298), using the first-version fallback. -/
def renderMatchupCardTags (m : Matchup) : List String :=
  ((resolveActiveVersion m).bind Version.tags).getD []

/-- saveMatchup (app.js lines 441-470) as the list of store calls it
issues.  The active version is read without optional chaining; when the
pointer is out of range the field read throws and the surrounding catch
swallows the error, so no call is made.  Otherwise the four edited fields
are compared against the active version with absent fields coalesced to
defaults, and a single update call is issued when any differs.  The tags
sent are the in-memory current version tag list itself. -/
def saveMatchupCalls (m : Matchup) (notesIn runesIn summIn itemsIn : String) :
    List StoreCall :=
  match getVersionAt m.versions m.current_version with
  | none => []
  | some cv =>
    let newNotes := notesIn
    let newRunes := parseCommaSeparated runesIn
    let newSummoners := parseCommaSeparated summIn
    let newItems := parseCommaSeparated itemsIn
    let newTags := cv.tags.getD []
    if newNotes ≠ cv.notes.getD "" ∨ newRunes ≠ cv.runes.getD [] ∨
        newSummoners ≠ cv.summoner_spells.getD [] ∨ newItems ≠ cv.items.getD [] then
      [StoreCall.update_matchup m.id
        ⟨newNotes, newTags, newRunes, newSummoners, newItems⟩]
    else []

/-- Modelled from the spec: the Matchup Store update operation invoked by
saveMatchup is not under src (it lives in the Tauri backend), so it is
taken from the specification text: construct a new Version whose date is
now and whose fields are the update payload as-is, append it to versions,
and point current_version at the new length. -/
def storeUpdate (m : Matchup) (now : String) (u : MatchupUpdate) : Matchup :=
  { m with
      versions := m.versions ++
        [⟨some u.notes, some u.tags, some u.runes, some u.summoner_spells,
          some u.items, some now⟩]
      current_version := (m.versions.length : Int) + 1 }

/-- commitEdit: the frontend diff of saveMatchup followed by the
spec-modelled store update for each issued call; the boolean reports
whether a version was created. -/
def commitEdit (m : Matchup) (now notesIn runesIn summIn itemsIn : String) :
    Matchup × Bool :=
  match saveMatchupCalls m notesIn runesIn summIn itemsIn with
  | [] => (m, false)
  | StoreCall.update_matchup _ u :: _ => (storeUpdate m now u, true)

/-! ## Helper lemmas about the character-level operations -/

theorem trimChars_eq_nil_iff (l : List Char) :
    trimChars l = [] ↔ ∀ c ∈ l, c.isWhitespace := by
  unfold trimChars
  rw [List.reverse_eq_nil_iff, List.dropWhile_eq_nil_iff]
  constructor
  · intro h c hc
    have hsplit := List.takeWhile_append_dropWhile
      (p := Char.isWhitespace) (l := l)
    rw [← hsplit] at hc
    rcases List.mem_append.mp hc with h1 | h2
    · exact List.mem_takeWhile_imp h1
    · exact h _ (List.mem_reverse.mpr h2)
  · intro h c hc
    exact h _ ((List.dropWhile_sublist _).subset (List.mem_reverse.mp hc))

theorem splitComma_ne_nil (l : List Char) : splitComma l ≠ [] := by
  cases l with
  | nil => simp [splitComma]
  | cons c cs => unfold splitComma; split <;> simp

theorem splitComma_of_not_mem (l : List Char) (h : ',' ∉ l) :
    splitComma l = [l] := by
  induction l with
  | nil => rfl
  | cons c cs ih =>
    have hc : ¬(c = ',') := by
      rintro rfl; exact h (List.mem_cons_self _ _)
    have h2 : ',' ∉ cs := fun hm => h (List.mem_cons_of_mem _ hm)
    simp [splitComma, hc, ih h2]

theorem splitComma_append_comma (a r : List Char) (h : ',' ∉ a) :
    splitComma (a ++ ',' :: r) = a :: splitComma r := by
  induction a with
  | nil => simp [splitComma]
  | cons c a2 ih =>
    have hc : ¬(c = ',') := by
      rintro rfl; exact h (List.mem_cons_self _ _)
    have h2 : ',' ∉ a2 := fun hm => h (List.mem_cons_of_mem _ hm)
    simp [splitComma, hc, ih h2]

theorem trimChars_cons_of_ws (c : Char) (q : List Char)
    (h : c.isWhitespace) : trimChars (c :: q) = trimChars q := by
  unfold trimChars
  rw [List.dropWhile_cons_of_pos h]

/-- The early whitespace-only return of parseCommaSeparated agrees with the
general split-trim-filter path, so the function is exactly the latter. -/
theorem parseCS_eq (l : List Char) :
    parseCS l = ((splitComma l).map trimChars).filter (fun p => !p.isEmpty) := by
  unfold parseCS
  split
  case isTrue h =>
    have hws : ∀ c ∈ l, c.isWhitespace := (trimChars_eq_nil_iff l).mp h
    have hnc : ',' ∉ l := by
      intro hm
      exact absurd (hws _ hm) (by decide)
    rw [splitComma_of_not_mem l hnc]
    simp [h]
  case isFalse h => rfl

theorem mem_joinCS_of_mem_head (c : Char) (h : List Char)
    (t : List (List Char)) (hc : c ∈ h) : c ∈ joinCS (h :: t) := by
  cases t with
  | nil => simpa [joinCS] using hc
  | cons b rest =>
    simp only [joinCS, List.mem_append]
    exact Or.inl hc

theorem parseCore_joinCS (l : List (List Char))
    (hcond : ∀ p ∈ l, p ≠ [] ∧ ',' ∉ p ∧ trimChars p = p) :
    ((splitComma (joinCS l)).map trimChars).filter (fun p => !p.isEmpty) = l := by
  induction l with
  | nil => rfl
  | cons h t ih =>
    obtain ⟨hne, hnc, htr⟩ := hcond h (List.mem_cons_self _ _)
    cases t with
    | nil =>
      rw [show joinCS [h] = h from rfl, splitComma_of_not_mem h hnc]
      simp [htr, hne]
    | cons b rest =>
      have hcond2 : ∀ p ∈ b :: rest, p ≠ [] ∧ ',' ∉ p ∧ trimChars p = p :=
        fun p hp => hcond p (List.mem_cons_of_mem _ hp)
      have ihr := ih hcond2
      rw [show joinCS (h :: b :: rest) = h ++ ',' :: ' ' :: joinCS (b :: rest)
        from rfl]
      rw [splitComma_append_comma _ _ hnc]
      cases hJ : splitComma (joinCS (b :: rest)) with
      | nil => exact absurd hJ (splitComma_ne_nil _)
      | cons q qs =>
        have hsp : splitComma (' ' :: joinCS (b :: rest)) = (' ' :: q) :: qs := by
          simp only [splitComma]
          rw [if_neg (by decide : ¬(' ' = ',')), hJ]
          rfl
        rw [hJ] at ihr
        rw [hsp]
        simp only [List.map_cons, List.filter_cons] at ihr ⊢
        rw [htr, trimChars_cons_of_ws ' ' q (by decide)]
        have hkeep : (!h.isEmpty) = true := by
          simpa [List.isEmpty_iff] using hne
        rw [hkeep]
        simp only [if_true]
        rw [ihr]

theorem parseCS_joinCS (l : List (List Char))
    (hcond : ∀ p ∈ l, p ≠ [] ∧ ',' ∉ p ∧ trimChars p = p) :
    parseCS (joinCS l) = l := by
  cases l with
  | nil => rfl
  | cons h t =>
    obtain ⟨hne, hnc, htr⟩ := hcond h (List.mem_cons_self _ _)
    have hguard : trimChars (joinCS (h :: t)) ≠ [] := by
      intro h0
      have hall := (trimChars_eq_nil_iff _).mp h0
      have hh : ∀ c ∈ h, c.isWhitespace :=
        fun c hc => hall c (mem_joinCS_of_mem_head c h t hc)
      have : trimChars h = [] := (trimChars_eq_nil_iff h).mpr hh
      rw [htr] at this
      exact hne this
    unfold parseCS
    rw [if_neg hguard]
    exact parseCore_joinCS (h :: t) hcond

/-- One handleAddTag call keeps the tag list free of duplicates. -/
theorem handleAddTag_nodup_step (v : Version) (raw : String)
    (h : (v.tags.getD []).Nodup) :
    ((handleAddTag v raw).tags.getD []).Nodup := by
  simp only [handleAddTag]
  split
  · exact h
  · split
    · simpa using h
    · rename_i hnm
      simp only [Option.getD_some]
      simp [List.nodup_append, h, hnm]

/-- Any sequence of handleAddTag calls keeps the tag list duplicate-free. -/
theorem foldl_addTag_nodup (raws : List String) (v : Version)
    (h : (v.tags.getD []).Nodup) :
    ((raws.foldl handleAddTag v).tags.getD []).Nodup := by
  induction raws generalizing v with
  | nil => exact h
  | cons r rs ih => exact ih _ (handleAddTag_nodup_step v r h)

/-! ## Concrete values for witnesses and counterexamples -/

def vA : Version :=
  ⟨some "a", some ["x"], some [], some [], some [], some "2024-01-01"⟩

def mA : Matchup := ⟨"m1", "Ahri", "Zed", "mid", [vA], 1⟩

def vNone : Version := ⟨none, none, none, none, none, none⟩

def mNone : Matchup := ⟨"m2", "Garen", "Darius", "top", [vNone], 1⟩

def mStale : Matchup := ⟨"m3", "Lux", "Ahri", "mid", [vA, vNone], 5⟩

def sTwo : EditSession :=
  ⟨⟨"m4", "Lux", "Zed", "mid", [vA, vNone], 2⟩, ⟨"", "", "", "", []⟩⟩

/-! ## Claim theorems -/

/-- C1: when every edited field equals the corresponding field of the
currently active version (absent fields coalesced to their defaults, and
the committed tag list being the active version tag list itself), saving
is a no-op: no store call is made, versionCreated is false, and the
matchup, its versions and its current_version are unchanged. -/
theorem commitEdit_noop (m : Matchup) (v : Version)
    (now nIn rIn sIn iIn : String)
    (hv : getVersionAt m.versions m.current_version = some v)
    (h1 : nIn = v.notes.getD "")
    (h2 : parseCommaSeparated rIn = v.runes.getD [])
    (h3 : parseCommaSeparated sIn = v.summoner_spells.getD [])
    (h4 : parseCommaSeparated iIn = v.items.getD []) :
    saveMatchupCalls m nIn rIn sIn iIn = [] ∧
    commitEdit m now nIn rIn sIn iIn = (m, false) := by
  have hcond : ¬(nIn ≠ v.notes.getD "" ∨
      parseCommaSeparated rIn ≠ v.runes.getD [] ∨
      parseCommaSeparated sIn ≠ v.summoner_spells.getD [] ∨
      parseCommaSeparated iIn ≠ v.items.getD []) := by
    push_neg
    exact ⟨h1, h2, h3, h4⟩
  have hs : saveMatchupCalls m nIn rIn sIn iIn = [] := by
    simp only [saveMatchupCalls, hv]
    rw [if_neg hcond]
  exact ⟨hs, by simp only [commitEdit, hs]⟩

theorem commitEdit_noop_witness :
    getVersionAt mA.versions mA.current_version = some vA ∧
    (saveMatchupCalls mA "a" "" "" "" = [] ∧
     commitEdit mA "t1" "a" "" "" "" = (mA, false)) :=
  ⟨by decide,
   commitEdit_noop mA vA "t1" "a" "" "" "" (by decide) (by decide) (by decide)
     (by decide) (by decide)⟩

/-- C2: when any compared field differs from the currently active version,
commitEdit appends exactly one new Version carrying the edited values
(tags taken as-is from the in-memory current version), points
current_version at the new length, reports that a version was created,
and leaves every previously stored version unmodified.  The committed tag
list is by construction the active version tag list, so a difference can
only arise in the four compared fields. -/
theorem commitEdit_creates_version (m : Matchup) (v : Version)
    (now nIn rIn sIn iIn : String)
    (hv : getVersionAt m.versions m.current_version = some v)
    (hdiff : nIn ≠ v.notes.getD "" ∨
      parseCommaSeparated rIn ≠ v.runes.getD [] ∨
      parseCommaSeparated sIn ≠ v.summoner_spells.getD [] ∨
      parseCommaSeparated iIn ≠ v.items.getD []) :
    (commitEdit m now nIn rIn sIn iIn).2 = true ∧
    (commitEdit m now nIn rIn sIn iIn).1.versions = m.versions ++
      [⟨some nIn, some (v.tags.getD []), some (parseCommaSeparated rIn),
        some (parseCommaSeparated sIn), some (parseCommaSeparated iIn),
        some now⟩] ∧
    (commitEdit m now nIn rIn sIn iIn).1.versions.length =
      m.versions.length + 1 ∧
    (commitEdit m now nIn rIn sIn iIn).1.current_version =
      (m.versions.length : Int) + 1 ∧
    ∀ k, k < m.versions.length →
      (commitEdit m now nIn rIn sIn iIn).1.versions[k]? = m.versions[k]? := by
  have hs : saveMatchupCalls m nIn rIn sIn iIn =
      [StoreCall.update_matchup m.id
        ⟨nIn, v.tags.getD [], parseCommaSeparated rIn,
         parseCommaSeparated sIn, parseCommaSeparated iIn⟩] := by
    simp only [saveMatchupCalls, hv]
    rw [if_pos hdiff]
  have hc : commitEdit m now nIn rIn sIn iIn =
      (storeUpdate m now
        ⟨nIn, v.tags.getD [], parseCommaSeparated rIn,
         parseCommaSeparated sIn, parseCommaSeparated iIn⟩, true) := by
    simp only [commitEdit, hs]
  rw [hc]
  refine ⟨rfl, rfl, ?_, rfl, ?_⟩
  · simp [storeUpdate]
  · intro k hk
    simp only [storeUpdate]
    rw [List.getElem?_append, if_pos hk]

theorem commitEdit_creates_version_witness :
    (commitEdit mA "t2" "b" "" "" "").2 = true ∧
    (commitEdit mA "t2" "b" "" "" "").1.versions =
      mA.versions ++
        [⟨some "b", some ["x"], some [], some [], some [], some "t2"⟩] ∧
    (commitEdit mA "t2" "b" "" "" "").1.current_version = 2 ∧
    (commitEdit mA "t2" "b" "" "" "").1.versions[0]? = mA.versions[0]? := by
  have h := commitEdit_creates_version mA vA "t2" "b" "" "" ""
    (by decide) (Or.inl (by decide))
  exact ⟨h.1, h.2.1, h.2.2.2.1, h.2.2.2.2 0 (by decide)⟩

/-- C3: adding a tag that is already present (in normalized form) leaves
the version unchanged, and no sequence of addTag calls ever introduces a
duplicate into the tag list. -/
theorem addTag_idem (v : Version) (t : String) (l : List String)
    (raws : List String) (hnorm : normTag t = t)
    (htags : v.tags = some l) (hmem : t ∈ l) :
    handleAddTag v t = v ∧
    (l.Nodup → ((raws.foldl handleAddTag v).tags.getD []).Nodup) := by
  constructor
  · by_cases hg : jsTrim t = ""
    · simp [handleAddTag, hg]
    · simp only [handleAddTag, if_neg hg, hnorm, htags, Option.getD_some,
        if_pos hmem]
      cases v with
      | mk a b c d e f =>
        simp only at htags
        rw [htags]
  · intro hnd
    exact foldl_addTag_nodup raws v (by rw [htags]; exact hnd)

theorem addTag_idem_witness :
    handleAddTag vA "x" = vA ∧
    ((["x", "New  Tag"].foldl handleAddTag vA).tags.getD []).Nodup := by
  have h := addTag_idem vA "x" ["x"] ["x", "New  Tag"] (by decide) rfl
    (by decide)
  exact ⟨h.1, h.2 (by decide)⟩

/-- C4: addTag trims its raw input and is a no-op when the trimmed input
is empty; otherwise it lower-cases, collapses whitespace runs to single
hyphens, and only then checks membership and appends at the end.  In
particular the raw input with the text Early Game padded by extra
whitespace yields the tag early-game exactly once, appended at the end of
the tag list. -/
theorem addTag_normalizes (v : Version) (l : List String) (raw : String) :
    (jsTrim raw = "" → handleAddTag v raw = v) ∧
    (jsTrim raw ≠ "" → (handleAddTag v raw).tags =
      some (if normTag raw ∈ v.tags.getD [] then v.tags.getD []
        else v.tags.getD [] ++ [normTag raw])) ∧
    (v.tags = some l → "early-game" ∉ l →
      handleAddTag v "  Early  Game " =
        { v with tags := some (l ++ ["early-game"]) } ∧
      (l ++ ["early-game"]).count "early-game" = 1) := by
  refine ⟨?_, ?_, ?_⟩
  · intro hg
    simp [handleAddTag, hg]
  · intro hg
    simp only [handleAddTag, if_neg hg]
    split
    · rfl
    · rfl
  · intro htags hmem
    have hnorm : normTag "  Early  Game " = "early-game" := by decide
    have hg : ¬(jsTrim "  Early  Game " = "") := by decide
    constructor
    · simp only [handleAddTag, if_neg hg, hnorm, htags, Option.getD_some,
        if_neg hmem]
    · rw [List.count_append, List.count_eq_zero.mpr hmem]
      simp

theorem addTag_normalizes_witness :
    handleAddTag vA "   " = vA ∧
    handleAddTag vA "  Early  Game " =
      { vA with tags := some ["x", "early-game"] } ∧
    (["x"] ++ ["early-game"]).count "early-game" = 1 := by
  have h := addTag_normalizes vA ["x"] "   "
  exact ⟨h.1 (by decide), (h.2.2 rfl (by decide)).1, (h.2.2 rfl (by decide)).2⟩

/-- C5: parseCommaSeparated splits on commas, trims each piece, drops the
pieces that are empty after trimming and preserves left-to-right order;
empty or whitespace-only input yields the empty sequence, and the two
concrete examples of the specification hold. -/
theorem parseCommaSeparated_spec (s : String) :
    parseCommaSeparated s =
      (((splitComma s.data).map trimChars).filter
        (fun p => !p.isEmpty)).map (fun p => (⟨p⟩ : String)) ∧
    (jsTrim s = "" → parseCommaSeparated s = []) ∧
    parseCommaSeparated "" = [] ∧
    parseCommaSeparated "a,, b ," = ["a", "b"] := by
  refine ⟨?_, ?_, by decide, by decide⟩
  · unfold parseCommaSeparated
    rw [parseCS_eq]
  · intro hg
    have hdata : trimChars s.data = [] := by
      have := congrArg String.data hg
      simpa [jsTrim] using this
    unfold parseCommaSeparated parseCS
    rw [if_pos hdata]
    rfl

theorem parseCommaSeparated_spec_witness :
    jsTrim "  " = "" ∧ parseCommaSeparated "  " = [] :=
  ⟨by decide, (parseCommaSeparated_spec "  ").2.1 (by decide)⟩

/-- C6 counterexample: joining and re-parsing does not reproduce every
list: an entry containing a comma is split apart, an empty entry is
dropped, and an entry with leading whitespace is trimmed. -/
theorem roundtrip_counterexample :
    parseCommaSeparated (joinWithComma ["a,b"]) ≠ ["a,b"] ∧
    parseCommaSeparated (joinWithComma ["a,b"]) = ["a", "b"] ∧
    parseCommaSeparated (joinWithComma [""]) ≠ [""] ∧
    parseCommaSeparated (joinWithComma [" a"]) ≠ [" a"] := by decide

/-- C6 amended: for every build list whose entries are nonempty, contain
no comma, and carry no leading or trailing whitespace, joining with the
comma-space separator and parsing back reproduces the list exactly. -/
theorem roundtrip_amended (L : List String)
    (h : ∀ x ∈ L, x ≠ "" ∧ ',' ∉ x.data ∧ jsTrim x = x) :
    parseCommaSeparated (joinWithComma L) = L := by
  have hcond : ∀ p ∈ L.map String.data,
      p ≠ [] ∧ ',' ∉ p ∧ trimChars p = p := by
    intro p hp
    obtain ⟨x, hx, rfl⟩ := List.mem_map.mp hp
    obtain ⟨h1, h2, h3⟩ := h x hx
    refine ⟨?_, h2, ?_⟩
    · intro h0
      apply h1
      cases x with
      | mk d =>
        simp only at h0
        rw [h0]
    · have := congrArg String.data h3
      simpa [jsTrim] using this
  unfold parseCommaSeparated joinWithComma
  rw [show (String.mk (joinCS (L.map String.data))).data =
    joinCS (L.map String.data) from rfl]
  rw [parseCS_joinCS _ hcond, List.map_map]
  have hid : ((fun p => (⟨p⟩ : String)) ∘ String.data) = id := by
    funext x
    rfl
  rw [hid, List.map_id]

theorem roundtrip_amended_witness :
    parseCommaSeparated (joinWithComma ["Conqueror", "Legend: Alacrity"]) =
      ["Conqueror", "Legend: Alacrity"] :=
  roundtrip_amended _ (by decide)

/-- C7: browsing a version is a pure read: for a valid 1-based index the
handler rewrites only the detail DOM to that version, makes no store
call, and leaves the in-memory matchup (in particular current_version and
versions) unchanged. -/
theorem selectVersion_pure_read (s : EditSession) (i : Int)
    (h1 : 1 ≤ i) (h2 : i ≤ (s.matchup.versions.length : Int)) :
    (handleVersionChange s i).1.matchup = s.matchup ∧
    (handleVersionChange s i).2 = [] ∧
    (getVersionAt s.matchup.versions i).isSome = true ∧
    ∀ v, getVersionAt s.matchup.versions i = some v →
      (handleVersionChange s i).1.dom = renderVersionDom (some v) := by
  have hnn : ¬(i - 1 < 0) := by omega
  have hlt : (i - 1).toNat < s.matchup.versions.length := by omega
  have hsome : getVersionAt s.matchup.versions i =
      some (s.matchup.versions[(i - 1).toNat]) := by
    unfold getVersionAt
    rw [if_neg hnn]
    exact List.getElem?_eq_getElem hlt
  refine ⟨rfl, rfl, by rw [hsome]; rfl, ?_⟩
  intro v hv
  show renderVersionDom (getVersionAt s.matchup.versions i) =
    renderVersionDom (some v)
  rw [hv]

theorem selectVersion_pure_read_witness :
    (handleVersionChange sTwo 1).1.matchup = sTwo.matchup ∧
    (handleVersionChange sTwo 1).2 = [] ∧
    (handleVersionChange sTwo 1).1.dom = renderVersionDom (some vA) :=
  ⟨(selectVersion_pure_read sTwo 1 (by decide) (by decide)).1,
   (selectVersion_pure_read sTwo 1 (by decide) (by decide)).2.1,
   (selectVersion_pure_read sTwo 1 (by decide) (by decide)).2.2.2 vA
     (by decide)⟩

/-- C8 counterexample: at the out-of-range indices zero and
length-plus-one the version-change handler does not fail at all: it
returns normally, rendering every detail field as its empty default. -/
theorem selectVersion_no_out_of_range_failure :
    handleVersionChange sTwo 0 =
      ({ matchup := sTwo.matchup,
         dom := ⟨"", "", "", "", []⟩ }, []) ∧
    handleVersionChange sTwo 3 =
      ({ matchup := sTwo.matchup,
         dom := ⟨"", "", "", "", []⟩ }, []) := by decide

/-- C8 amended: for an index below one or beyond the number of versions
the lookup selects no version and the handler, instead of failing with an
OutOfRange condition, silently renders the default empty fields and makes
no store call. -/
theorem selectVersion_out_of_range_silent (s : EditSession) (i : Int)
    (h : i < 1 ∨ (s.matchup.versions.length : Int) < i) :
    getVersionAt s.matchup.versions i = none ∧
    handleVersionChange s i =
      ({ matchup := s.matchup,
         dom := ⟨"", "", "", "", []⟩ }, []) := by
  have hnone : getVersionAt s.matchup.versions i = none := by
    unfold getVersionAt
    rcases h with h | h
    · rw [if_pos (by omega)]
    · rw [if_neg (by omega : ¬(i - 1 < 0))]
      exact List.getElem?_eq_none (by omega)
  refine ⟨hnone, ?_⟩
  simp only [handleVersionChange, hnone]
  rfl

theorem selectVersion_out_of_range_silent_witness :
    getVersionAt sTwo.matchup.versions 0 = none ∧
    handleVersionChange sTwo 0 =
      ({ matchup := sTwo.matchup,
         dom := ⟨"", "", "", "", []⟩ }, []) :=
  selectVersion_out_of_range_silent sTwo 0 (Or.inl (by decide))

/-- C9: when the current_version pointer selects no available version,
both read paths (the matchup card rendering and the detail load)
deterministically fall back to the first version. -/
theorem fallback_to_first_version (m : Matchup) (h1 : m.versions ≠ [])
    (h2 : getVersionAt m.versions m.current_version = none) :
    resolveActiveVersion m = some (m.versions.head h1) ∧
    openMatchupDetailDom m = renderVersionDom (some (m.versions.head h1)) ∧
    renderMatchupCardTags m = ((m.versions.head h1).tags).getD [] := by
  have hres : resolveActiveVersion m = some (m.versions.head h1) := by
    unfold resolveActiveVersion
    simp only [h2]
    simp [List.getElem?_eq_getElem, List.length_pos.mpr h1, List.getElem_zero]
  refine ⟨hres, ?_, ?_⟩
  · unfold openMatchupDetailDom
    rw [hres]
  · unfold renderMatchupCardTags
    rw [hres]
    rfl

theorem fallback_to_first_version_witness :
    resolveActiveVersion mStale = some vA ∧
    openMatchupDetailDom mStale = renderVersionDom (some vA) ∧
    renderMatchupCardTags mStale = ["x"] :=
  ⟨(fallback_to_first_version mStale (by decide) (by decide)).1,
   (fallback_to_first_version mStale (by decide) (by decide)).2.1,
   (fallback_to_first_version mStale (by decide) (by decide)).2.2⟩

/-- C10: the change detection of saveMatchup coalesces absent fields to
defaults: on an active version lacking notes and the three build lists,
committing empty notes and empty build inputs is detected as unchanged,
so no update is issued and no version is created. -/
theorem save_coalesces_absent (m : Matchup) (v : Version) (now : String)
    (hv : getVersionAt m.versions m.current_version = some v)
    (hn : v.notes = none) (hr : v.runes = none)
    (hsp : v.summoner_spells = none) (hi : v.items = none) :
    saveMatchupCalls m "" "" "" "" = [] ∧
    commitEdit m now "" "" "" "" = (m, false) := by
  have hparse : parseCommaSeparated "" = [] := by decide
  have hcond : ¬(("" : String) ≠ v.notes.getD "" ∨
      parseCommaSeparated "" ≠ v.runes.getD [] ∨
      parseCommaSeparated "" ≠ v.summoner_spells.getD [] ∨
      parseCommaSeparated "" ≠ v.items.getD []) := by
    rw [hn, hr, hsp, hi]
    push_neg
    exact ⟨rfl, hparse, hparse, hparse⟩
  have hs : saveMatchupCalls m "" "" "" "" = [] := by
    simp only [saveMatchupCalls, hv]
    rw [if_neg hcond]
  exact ⟨hs, by simp only [commitEdit, hs]⟩

theorem save_coalesces_absent_witness :
    getVersionAt mNone.versions mNone.current_version = some vNone ∧
    (saveMatchupCalls mNone "" "" "" "" = [] ∧
     commitEdit mNone "t3" "" "" "" "" = (mNone, false)) :=
  ⟨by decide,
   save_coalesces_absent mNone vNone "t3" (by decide) rfl rfl rfl rfl⟩

end MatchupHelper
